import Mathlib

/-!
Shallow embedding of src/derived_anagram.c (Derived Anagram Finder).

Characters are modelled as natural numbers (byte values) and words as lists
of characters.  The global chained hash table is modelled as a list of
entries in reverse insertion order: insert_word prepends a fresh entry to
its bucket and find_word scans the bucket for the first entry whose sorted
canonical form matches the query, skipping entries with other sorted forms.
All entries with the queried sorted form live in one bucket, in reverse
insertion order, so scanning the whole reverse-insertion-order list for the
first match returns exactly the entry the C lookup returns.
-/

/-- One dictionary entry: struct Word without the intrusive chaining pointer
and without the mutable dp field (dp is modelled separately, as a parallel
memo table, where memoisation matters). -/
structure Word where
  original : List Nat
  sorted : List Nat
  length : Nat
deriving DecidableEq

/-- The dictionary, in reverse insertion order (most recent entry first). -/
abbrev Table := List Word

/-- One step of the insertion sort in sort_string: the C inner loop shifts
elements that are greater than the key, so the key lands after every element
that is less than or equal to it. -/
def insertKey : List Nat → Nat → List Nat
  | [], c => [c]
  | x :: xs, c => if x ≤ c then x :: insertKey xs c else c :: x :: xs

/-- sort_string: insertion sort of the characters of a word, processing the
characters left to right. -/
def sort_string (s : List Nat) : List Nat :=
  s.foldl insertKey []

/-- The merge step shared by longest_chain and print_chains: characters
strictly below c are copied, then c is placed, then the rest follows, so c
lands immediately before the first character that is greater or equal. -/
def insertChar : List Nat → Nat → List Nat
  | [], c => [c]
  | x :: xs, c => if x < c then x :: insertChar xs c else c :: x :: xs

/-- The entry stored by insert_word for a given spelling. -/
def mkWord (w : List Nat) : Word :=
  ⟨w, sort_string w, w.length⟩

/-- insert_word: create an entry and prepend it (most recent first). -/
def insert_word (tbl : Table) (w : List Nat) : Table :=
  mkWord w :: tbl

/-- find_word: the first entry whose sorted canonical form matches. -/
def find_word (tbl : Table) (s : List Nat) : Option Word :=
  tbl.find? (fun w => w.sorted == s)

/-- Load a dictionary: insert every word in file order. -/
def buildTable (ws : List (List Nat)) : Table :=
  ws.foldl insert_word []

/-- The successors of w found by inserting each of the 94 printable ASCII
characters 33..126 into its sorted form, in increasing character order. -/
def succs (tbl : Table) (w : Word) : List Word :=
  (List.range' 33 94).filterMap (fun c => find_word tbl (insertChar w.sorted c))

/-- Fuel-indexed value of the recursion in longest_chain: for each printable
character, insert it into the sorted form, look the result up, and take the
maximum of 1 and the successor chain lengths plus one.  The C function needs
no fuel because transitions strictly grow words; the stability lemmas below
show the fuel is irrelevant once it exceeds the longest word length. -/
def longest_chain (tbl : Table) : Nat → Word → Nat
  | 0, _ => 1
  | fuel + 1, w =>
    (List.range' 33 94).foldl (fun best c =>
      (find_word tbl (insertChar w.sorted c)).elim best
        (fun s => max best (1 + longest_chain tbl fuel s))) 1

/-- Length of the longest sorted canonical form in the table. -/
def maxSorted (tbl : Table) : Nat :=
  tbl.foldr (fun w m => max w.sorted.length m) 0

/-- resolve: longest_chain with enough fuel for any word (the C recursion
always bottoms out within this depth). -/
def resolve (tbl : Table) (w : Word) : Nat :=
  longest_chain tbl (maxSorted tbl + 1) w

/-- A valid transition: some printable ASCII character inserted into the
sorted form of w leads, via the Index, to the entry s. -/
def Step (tbl : Table) (w s : Word) : Prop :=
  ∃ c, 33 ≤ c ∧ c ≤ 126 ∧ find_word tbl (insertChar w.sorted c) = some s

/-- Every entry of a loaded table stores its spelling together with the
sorted form and the length of that same spelling. -/
def WellFormed (tbl : Table) : Prop :=
  ∀ w ∈ tbl, w.sorted = sort_string w.original ∧ w.length = w.original.length

instance (tbl : Table) : Decidable (WellFormed tbl) :=
  inferInstanceAs (Decidable (∀ w ∈ tbl,
    w.sorted = sort_string w.original ∧ w.length = w.original.length))

/-- Length of the longest spelling in the table. -/
def longestWordLen (tbl : Table) : Nat :=
  tbl.foldr (fun w m => max w.original.length m) 0

/-- print_chains, as the list of emitted chains (each chain the list of the
spellings printed, in order): write the current spelling at the current
depth, emit the accumulated chain when the target length is reached, and
otherwise recurse into every successor whose memoised chain length equals
the remaining length; successors are scanned in increasing character order.
The memoised dp value of a reachable entry equals resolve of that entry,
which is the stated precondition of the enumeration pass. -/
def print_chains (tbl : Table) (maxLen : Nat) : Nat → Word → Nat → List (List Nat) → List (List (List Nat))
  | 0, _, _, _ => []
  | fuel + 1, w, depth, acc =>
    let acc2 := acc ++ [w.original]
    if depth + 1 = maxLen then [acc2]
    else (List.range' 33 94).flatMap (fun c =>
      (find_word tbl (insertChar w.sorted c)).elim []
        (fun s =>
          if resolve tbl s = maxLen - depth - 1 then
            print_chains tbl maxLen fuel s (depth + 1) acc2
          else []))

/-- The depths at which print_chains writes into the path buffer (the
strcpy into chain[depth] at the top of every invocation), in the order the
writes happen: an instrumented shadow of print_chains recording depth
instead of emitting chains. -/
def writeDepths (tbl : Table) (maxLen : Nat) : Nat → Word → Nat → List Nat
  | 0, _, _ => []
  | fuel + 1, w, depth =>
    depth :: (if depth + 1 = maxLen then []
      else (List.range' 33 94).flatMap (fun c =>
        (find_word tbl (insertChar w.sorted c)).elim []
          (fun s =>
            if resolve tbl s = maxLen - depth - 1 then
              writeDepths tbl maxLen fuel s (depth + 1)
            else [])))

/-- Suffixes of optimal chains as print_chains explores them from a given
depth: a one-entry suffix is complete exactly when its depth is the last
one, and a longer suffix starts with a transition to a successor whose
memoised chain length equals the remaining length. -/
def GoodSuffix (tbl : Table) (maxLen : Nat) : Nat → List Word → Prop
  | _, [] => False
  | depth, [_] => depth + 1 = maxLen
  | depth, w :: s :: rest =>
    depth + 1 ≠ maxLen ∧ Step tbl w s ∧ resolve tbl s = maxLen - depth - 1 ∧
      GoodSuffix tbl maxLen (depth + 1) (s :: rest)

/-- The character whose insertion turns the first sorted form into the
second: the second form's entry at the first position where the two forms
differ (its extra last element when no position differs). -/
def addedChar : List Nat → List Nat → Nat
  | x :: xs, y :: ys => if x = y then addedChar xs ys else y
  | _, y :: _ => y
  | _, _ => 0

/-- The sequence of inserted characters along an emitted chain of
spellings, one character per consecutive pair. -/
def chainChars (cs : List (List Nat)) : List Nat :=
  (cs.zip cs.tail).map (fun p => addedChar (sort_string p.1) (sort_string p.2))

/-- Strict lexicographic order on character sequences. -/
def lexLt : List Nat → List Nat → Prop
  | _, [] => False
  | [], _ :: _ => True
  | x :: xs, y :: ys => x < y ∨ (x = y ∧ lexLt xs ys)

/-- The dp fields of the table entries, as a parallel array: the dp of the
i-th entry is the i-th element, none standing for the sentinel -1. -/
abbrev Memo := List (Option Nat)

/-- find_word returning the position of the entry instead of the entry
itself, for the state-threaded functions that mutate dp. -/
def find_idx (tbl : Table) (s : List Nat) : Option Nat :=
  tbl.findIdx? (fun w => w.sorted == s)

/-- longest_chain exactly as the C executes it: the entry is a position i
into the table, dp is read first and returned at once when already set, the
94 characters are tried in order threading the memo through the recursive
calls, and dp is written before returning.  The third component counts the
entries expanded, that is the executions of the 94-character loop. -/
def longestChainMemo (tbl : Table) : Nat → Nat → Memo → Nat × Memo × Nat
  | 0, _, m => (1, m, 0)
  | fuel + 1, i, m =>
    match tbl[i]? with
    | none => (1, m, 0)
    | some w =>
      match m[i]? with
      | some (some d) => (d, m, 0)
      | _ =>
        let r := (List.range' 33 94).foldl (fun acc c =>
          match find_idx tbl (insertChar w.sorted c) with
          | some j =>
            let t := longestChainMemo tbl fuel j acc.2.1
            (max acc.1 (1 + t.1), t.2.1, acc.2.2 + t.2.2)
          | none => acc) (1, m, 0)
        (r.1, r.2.1.set i (some r.1), r.2.2 + 1)

/-- print_chains as the C executes it, with the memoised dp array threaded
through as the state it reads: emits the chains and passes the memo along
unchanged. -/
def printChainsMemo (tbl : Table) (maxLen : Nat) :
    Nat → Nat → Nat → List (List Nat) → Memo → List (List (List Nat)) × Memo
  | 0, _, _, _, m => ([], m)
  | fuel + 1, i, depth, acc, m =>
    match tbl[i]? with
    | none => ([], m)
    | some w =>
      let acc2 := acc ++ [w.original]
      if depth + 1 = maxLen then ([acc2], m)
      else (List.range' 33 94).foldl (fun st c =>
        match find_idx tbl (insertChar w.sorted c) with
        | some j =>
          if st.2[j]? = some (some (maxLen - depth - 1)) then
            let r := printChainsMemo tbl maxLen fuel j (depth + 1) acc2 st.2
            (st.1 ++ r.1, r.2)
          else st
        | none => st) ([], m)

theorem insertChar_length (l : List Nat) (c : Nat) :
    (insertChar l c).length = l.length + 1 := by
  induction l with
  | nil => rfl
  | cons x xs ih =>
    simp only [insertChar]
    split
    · simp [ih]
    · simp

theorem find_word_mem {tbl : Table} {s : List Nat} {w : Word}
    (h : find_word tbl s = some w) : w ∈ tbl :=
  List.mem_of_find?_eq_some h

theorem find_word_sorted {tbl : Table} {s : List Nat} {w : Word}
    (h : find_word tbl s = some w) : w.sorted = s := by
  have := List.find?_some h
  simpa using this

theorem mem_succs {tbl : Table} {w s : Word} :
    s ∈ succs tbl w ↔
      ∃ c, c ∈ List.range' 33 94 ∧ find_word tbl (insertChar w.sorted c) = some s := by
  simp [succs, List.mem_filterMap]

theorem mem_range'_char {c : Nat} : c ∈ List.range' 33 94 ↔ 33 ≤ c ∧ c ≤ 126 := by
  constructor
  · intro h
    have := List.mem_range'_1.mp h
    omega
  · intro h
    exact List.mem_range'_1.mpr (by omega)

theorem step_iff_mem_succs {tbl : Table} {w s : Word} :
    Step tbl w s ↔ s ∈ succs tbl w := by
  rw [mem_succs]
  constructor
  · rintro ⟨c, h1, h2, h3⟩
    exact ⟨c, mem_range'_char.mpr ⟨h1, h2⟩, h3⟩
  · rintro ⟨c, hc, h3⟩
    rcases mem_range'_char.mp hc with ⟨h1, h2⟩
    exact ⟨c, h1, h2, h3⟩

theorem succs_mem_table {tbl : Table} {w s : Word} (h : s ∈ succs tbl w) :
    s ∈ tbl := by
  rcases mem_succs.mp h with ⟨c, _, hfind⟩
  exact find_word_mem hfind

theorem succs_sorted_length {tbl : Table} {w s : Word} (h : s ∈ succs tbl w) :
    s.sorted.length = w.sorted.length + 1 := by
  rcases mem_succs.mp h with ⟨c, _, hfind⟩
  rw [find_word_sorted hfind, insertChar_length]

theorem mem_le_maxSorted {tbl : Table} {w : Word} (h : w ∈ tbl) :
    w.sorted.length ≤ maxSorted tbl := by
  induction tbl with
  | nil => cases h
  | cons x xs ih =>
    rcases List.mem_cons.mp h with h | h
    · subst h; simp [maxSorted]
    · have := ih h
      simp only [maxSorted, List.foldr_cons] at *
      omega


theorem foldl_filterMap_option {α β γ : Type} (l : List α) (f : α → Option β)
    (g : γ → β → γ) (init : γ) :
    l.foldl (fun b a => (f a).elim b (g b)) init = (l.filterMap f).foldl g init := by
  induction l generalizing init with
  | nil => rfl
  | cons x xs ih =>
    simp only [List.foldl_cons, List.filterMap_cons]
    cases f x <;> simp [ih]

theorem le_foldl_max {α : Type} (l : List α) (h : α → Nat) (init : Nat) :
    init ≤ l.foldl (fun b t => max b (1 + h t)) init := by
  induction l generalizing init with
  | nil => exact Nat.le_refl _
  | cons x xs ih => exact Nat.le_trans (Nat.le_max_left _ _) (ih _)

theorem mem_le_foldl_max {α : Type} (h : α → Nat) :
    ∀ (l : List α) (init : Nat) {s : α}, s ∈ l →
      1 + h s ≤ l.foldl (fun b t => max b (1 + h t)) init := by
  intro l
  induction l with
  | nil => intro init s hs; cases hs
  | cons x xs ih =>
    intro init s hs
    rcases List.mem_cons.mp hs with h1 | h1
    · subst h1
      exact Nat.le_trans (Nat.le_max_right _ _) (le_foldl_max _ _ _)
    · exact ih _ h1

theorem foldl_max_le {α : Type} {h : α → Nat} :
    ∀ (l : List α) {init B : Nat}, init ≤ B → (∀ s ∈ l, 1 + h s ≤ B) →
      l.foldl (fun b t => max b (1 + h t)) init ≤ B := by
  intro l
  induction l with
  | nil => intro init B h0 _; exact h0
  | cons x xs ih =>
    intro init B h0 hl
    refine ih ?_ (fun s hs => hl s (List.mem_cons_of_mem _ hs))
    exact Nat.max_le.mpr ⟨h0, hl x (List.mem_cons_self _ _)⟩

theorem foldl_max_attained {α : Type} :
    ∀ (l : List α) (h : α → Nat) (init : Nat),
      l.foldl (fun b t => max b (1 + h t)) init = init ∨
        ∃ s ∈ l, l.foldl (fun b t => max b (1 + h t)) init = 1 + h s := by
  intro l
  induction l with
  | nil => intro h init; exact Or.inl rfl
  | cons x xs ih =>
    intro h init
    rcases ih h (max init (1 + h x)) with h1 | ⟨s, hs, h1⟩
    · simp only [List.foldl_cons] at h1 ⊢
      rw [h1]
      rcases Nat.le_total (1 + h x) init with hle | hle
      · exact Or.inl (by omega)
      · exact Or.inr ⟨x, List.mem_cons_self _ _, by omega⟩
    · simp only [List.foldl_cons] at h1 ⊢
      exact Or.inr ⟨s, List.mem_cons_of_mem _ hs, h1⟩

theorem foldl_congr_mem {α β : Type} {l : List α} {f g : β → α → β} {init : β}
    (h : ∀ a ∈ l, ∀ b, f b a = g b a) :
    l.foldl f init = l.foldl g init := by
  induction l generalizing init with
  | nil => rfl
  | cons x xs ih =>
    simp only [List.foldl_cons]
    rw [h x (List.mem_cons_self _ _)]
    exact ih (fun a ha b => h a (List.mem_cons_of_mem _ ha) b)

theorem longest_chain_succ (tbl : Table) (fuel : Nat) (w : Word) :
    longest_chain tbl (fuel + 1) w =
      (succs tbl w).foldl (fun best s => max best (1 + longest_chain tbl fuel s)) 1 := by
  simp only [longest_chain, succs]
  exact foldl_filterMap_option (List.range' 33 94)
    (fun c => find_word tbl (insertChar w.sorted c))
    (fun best s => max best (1 + longest_chain tbl fuel s)) 1

theorem print_chains_zero (tbl : Table) (maxLen : Nat) (w : Word) (depth : Nat)
    (acc : List (List Nat)) : print_chains tbl maxLen 0 w depth acc = [] := rfl

theorem one_le_longest_chain (tbl : Table) (fuel : Nat) (w : Word) :
    1 ≤ longest_chain tbl fuel w := by
  cases fuel with
  | zero => exact Nat.le_refl _
  | succ fuel =>
    rw [longest_chain_succ]
    exact le_foldl_max _ _ _

theorem succs_nil_of_long {tbl : Table} {w : Word}
    (h : maxSorted tbl + 1 ≤ w.sorted.length) : succs tbl w = [] := by
  by_contra hne
  rcases List.exists_mem_of_ne_nil _ hne with ⟨s, hs⟩
  have h1 := succs_sorted_length hs
  have h2 := mem_le_maxSorted (succs_mem_table hs)
  omega

theorem longest_chain_stable_succ (tbl : Table) :
    ∀ fuel (w : Word), maxSorted tbl + 1 ≤ fuel + w.sorted.length →
      longest_chain tbl (fuel + 1) w = longest_chain tbl fuel w := by
  intro fuel
  induction fuel with
  | zero =>
    intro w h
    have hnil : succs tbl w = [] := succs_nil_of_long (by omega)
    rw [longest_chain_succ, hnil]
    rfl
  | succ fuel ih =>
    intro w h
    rw [longest_chain_succ, longest_chain_succ]
    refine foldl_congr_mem ?_
    intro s hs b
    have h1 := succs_sorted_length hs
    rw [ih s (by omega)]

theorem longest_chain_stable_add (tbl : Table) (k : Nat) :
    ∀ fuel (w : Word), maxSorted tbl + 1 ≤ fuel + w.sorted.length →
      longest_chain tbl (fuel + k) w = longest_chain tbl fuel w := by
  induction k with
  | zero => intro fuel w _; rfl
  | succ k ih =>
    intro fuel w h
    have h1 : fuel + (k + 1) = (fuel + k) + 1 := by omega
    rw [h1, longest_chain_stable_succ tbl (fuel + k) w (by omega), ih fuel w h]

theorem longest_chain_eq_resolve (tbl : Table) (fuel : Nat) (w : Word)
    (h : maxSorted tbl + 1 ≤ fuel + w.sorted.length) :
    longest_chain tbl fuel w = resolve tbl w := by
  rcases Nat.le_total fuel (maxSorted tbl + 1) with hle | hle
  · have h1 : longest_chain tbl (fuel + (maxSorted tbl + 1 - fuel)) w =
        longest_chain tbl fuel w :=
      longest_chain_stable_add tbl _ fuel w h
    have h2 : fuel + (maxSorted tbl + 1 - fuel) = maxSorted tbl + 1 := by omega
    calc longest_chain tbl fuel w
        = longest_chain tbl (fuel + (maxSorted tbl + 1 - fuel)) w := h1.symm
      _ = resolve tbl w := by rw [h2, resolve]
  · have h1 : longest_chain tbl ((maxSorted tbl + 1) + (fuel - (maxSorted tbl + 1))) w =
        longest_chain tbl (maxSorted tbl + 1) w :=
      longest_chain_stable_add tbl _ (maxSorted tbl + 1) w (by omega)
    have h2 : (maxSorted tbl + 1) + (fuel - (maxSorted tbl + 1)) = fuel := by omega
    rw [resolve, ← h1, h2]

theorem resolve_recurrence (tbl : Table) (w : Word) :
    resolve tbl w =
      (succs tbl w).foldl (fun best s => max best (1 + resolve tbl s)) 1 := by
  rw [resolve, longest_chain_succ]
  refine foldl_congr_mem ?_
  intro s hs b
  have h1 := succs_sorted_length hs
  rw [longest_chain_eq_resolve tbl (maxSorted tbl) s (by omega)]

theorem one_le_resolve (tbl : Table) (w : Word) : 1 ≤ resolve tbl w :=
  one_le_longest_chain tbl _ w

theorem resolve_step_le {tbl : Table} {w s : Word} (h : s ∈ succs tbl w) :
    1 + resolve tbl s ≤ resolve tbl w := by
  rw [resolve_recurrence tbl w]
  exact mem_le_foldl_max (resolve tbl) _ _ h

theorem resolve_attained {tbl : Table} {w : Word} (h : 2 ≤ resolve tbl w) :
    ∃ s ∈ succs tbl w, resolve tbl w = 1 + resolve tbl s := by
  rcases foldl_max_attained (succs tbl w) (resolve tbl) 1 with h1 | ⟨s, hs, h1⟩
  · rw [resolve_recurrence tbl w] at h
    omega
  · exact ⟨s, hs, by rw [resolve_recurrence tbl w]; exact h1⟩

theorem resolve_eq_one_of_no_succ {tbl : Table} {w : Word}
    (h : succs tbl w = []) : resolve tbl w = 1 := by
  rw [resolve_recurrence, h]
  rfl

/-- C1: resolve returns the longest-chain value of its defining recurrence:
it equals the maximum, starting from 1, over all successors present in the
Index (one canonical form per insertable printable ASCII character) of one
plus the successor's resolve value; in particular it equals 1 when no
successor exists, and it is at least 1 in all cases. -/
theorem claim_C1 (tbl : Table) (w : Word) :
    resolve tbl w = ((succs tbl w).map (fun s => 1 + resolve tbl s)).foldl max 1 ∧
    (succs tbl w = [] → resolve tbl w = 1) ∧
    1 ≤ resolve tbl w := by
  refine ⟨?_, fun h => resolve_eq_one_of_no_succ h, one_le_resolve tbl w⟩
  rw [resolve_recurrence tbl w, List.foldl_map]

/-- Witness for C1 on the one-word dictionary containing cat. -/
theorem claim_C1_witness :
    succs (buildTable [[99, 97, 116]]) (mkWord [99, 97, 116]) = [] ∧
    resolve (buildTable [[99, 97, 116]]) (mkWord [99, 97, 116]) = 1 :=
  ⟨by decide,
    (claim_C1 (buildTable [[99, 97, 116]]) (mkWord [99, 97, 116])).2.1 (by decide)⟩

theorem gs_length (tbl : Table) (maxLen : Nat) :
    ∀ (es : List Word) (depth : Nat), GoodSuffix tbl maxLen depth es →
      depth + es.length = maxLen := by
  intro es
  induction es with
  | nil => intro depth h; exact h.elim
  | cons w rest ih =>
    intro depth h
    cases rest with
    | nil =>
      simp only [GoodSuffix] at h
      simpa using h
    | cons s rest2 =>
      simp only [GoodSuffix] at h
      have := ih (depth + 1) h.2.2.2
      simp only [List.length_cons] at *
      omega

theorem gs_chain (tbl : Table) (maxLen : Nat) :
    ∀ (es : List Word) (depth : Nat), GoodSuffix tbl maxLen depth es →
      List.Chain' (Step tbl) es := by
  intro es
  induction es with
  | nil => intro depth _; exact List.chain'_nil
  | cons w rest ih =>
    intro depth h
    cases rest with
    | nil => exact List.chain'_singleton w
    | cons s rest2 =>
      simp only [GoodSuffix] at h
      exact List.chain'_cons.mpr ⟨h.2.1, ih (depth + 1) h.2.2.2⟩

theorem gs_tail_mem (tbl : Table) (maxLen : Nat) :
    ∀ (es : List Word) (depth : Nat), GoodSuffix tbl maxLen depth es →
      ∀ e ∈ es.tail, e ∈ tbl := by
  intro es
  induction es with
  | nil => intro depth h; exact h.elim
  | cons w rest ih =>
    intro depth h
    cases rest with
    | nil => intro e he; cases he
    | cons s rest2 =>
      simp only [GoodSuffix] at h
      intro e he
      rcases List.mem_cons.mp he with he | he
      · subst he
        rcases h.2.1 with ⟨c, _, _, hfw⟩
        exact find_word_mem hfw
      · exact ih (depth + 1) h.2.2.2 e (by simpa using he)

theorem gs_resolve_last (tbl : Table) (maxLen : Nat) :
    ∀ (rest : List Word) (w : Word) (depth : Nat),
      GoodSuffix tbl maxLen depth (w :: rest) →
      resolve tbl w + depth = maxLen →
      resolve tbl ((w :: rest).getLast (List.cons_ne_nil w rest)) = 1 := by
  intro rest
  induction rest with
  | nil =>
    intro w depth hgs hres
    simp only [GoodSuffix] at hgs
    simp only [List.getLast_singleton]
    omega
  | cons s rest2 ih =>
    intro w depth hgs hres
    simp only [GoodSuffix] at hgs
    have hlen := gs_length tbl maxLen (s :: rest2) (depth + 1) hgs.2.2.2
    have hres2 : resolve tbl s + (depth + 1) = maxLen := by
      have := hgs.2.2.1
      simp only [List.length_cons] at hlen
      omega
    rw [List.getLast_cons (List.cons_ne_nil s rest2)]
    exact ih s (depth + 1) hgs.2.2.2 hres2

theorem resolve_ge_chain_len (tbl : Table) :
    ∀ (rest : List Word) (w : Word), List.Chain' (Step tbl) (w :: rest) →
      (w :: rest).length ≤ resolve tbl w := by
  intro rest
  induction rest with
  | nil => intro w _; simpa using one_le_resolve tbl w
  | cons s rest2 ih =>
    intro w h
    rw [List.chain'_cons] at h
    have h1 := resolve_step_le (step_iff_mem_succs.mp h.1)
    have h2 := ih s h.2
    simp only [List.length_cons] at *
    omega

theorem chain_to_gs (tbl : Table) (maxLen : Nat) :
    ∀ (rest : List Word) (w : Word) (depth : Nat),
      List.Chain' (Step tbl) (w :: rest) →
      resolve tbl w + depth = maxLen →
      depth + (w :: rest).length = maxLen →
      GoodSuffix tbl maxLen depth (w :: rest) := by
  intro rest
  induction rest with
  | nil =>
    intro w depth _ _ hlen
    simp only [GoodSuffix]
    simpa using hlen
  | cons s rest2 ih =>
    intro w depth hch hres hlen
    rw [List.chain'_cons] at hch
    have h1 := resolve_step_le (step_iff_mem_succs.mp hch.1)
    have h2 := resolve_ge_chain_len tbl rest2 s hch.2
    simp only [List.length_cons] at hlen h2
    have hres2 : resolve tbl s + (depth + 1) = maxLen := by omega
    refine ⟨by omega, hch.1, by omega, ?_⟩
    refine ih s (depth + 1) hch.2 hres2 ?_
    simp only [List.length_cons]
    omega

theorem mem_print_chains (tbl : Table) (maxLen : Nat) :
    ∀ (fuel : Nat) (w : Word) (depth : Nat) (acc cs : List (List Nat)),
      depth < maxLen → maxLen ≤ depth + fuel →
      (cs ∈ print_chains tbl maxLen fuel w depth acc ↔
        ∃ es, GoodSuffix tbl maxLen depth (w :: es) ∧
          cs = acc ++ (w :: es).map (fun e => e.original)) := by
  intro fuel
  induction fuel with
  | zero =>
    intro w depth acc cs h1 h2
    exact absurd h2 (by omega)
  | succ fuel ih =>
    intro w depth acc cs h1 h2
    by_cases hEnd : depth + 1 = maxLen
    · simp only [print_chains, if_pos hEnd, List.mem_singleton]
      constructor
      · intro hcs
        refine ⟨[], ?_, by simpa using hcs⟩
        simp only [GoodSuffix]
        exact hEnd
      · rintro ⟨es, hgs, hcs⟩
        cases es with
        | nil => simpa using hcs
        | cons s rest =>
          simp only [GoodSuffix] at hgs
          exact absurd hEnd hgs.1
    · simp only [print_chains, if_neg hEnd, List.mem_flatMap]
      constructor
      · rintro ⟨c, hc, hcs⟩
        cases hfw : find_word tbl (insertChar w.sorted c) with
        | none => rw [hfw] at hcs; cases hcs
        | some s =>
          rw [hfw] at hcs
          simp only [Option.elim] at hcs
          by_cases hres : resolve tbl s = maxLen - depth - 1
          · rw [if_pos hres] at hcs
            rcases (ih s (depth + 1) (acc ++ [w.original]) cs (by omega)
              (by omega)).mp hcs with ⟨es, hgs, hcs2⟩
            rcases mem_range'_char.mp hc with ⟨hc1, hc2⟩
            refine ⟨s :: es, ?_, by simpa using hcs2⟩
            exact ⟨hEnd, ⟨c, hc1, hc2, hfw⟩, hres, hgs⟩
          · rw [if_neg hres] at hcs
            cases hcs
      · rintro ⟨es, hgs, hcs⟩
        cases es with
        | nil =>
          simp only [GoodSuffix] at hgs
          exact absurd hgs hEnd
        | cons s rest =>
          simp only [GoodSuffix] at hgs
          obtain ⟨-, hstep, hres, hgs2⟩ := hgs
          rcases hstep with ⟨c, hc1, hc2, hfw⟩
          refine ⟨c, mem_range'_char.mpr ⟨hc1, hc2⟩, ?_⟩
          rw [hfw]
          simp only [Option.elim]
          rw [if_pos hres]
          refine (ih s (depth + 1) (acc ++ [w.original]) cs (by omega)
            (by omega)).mpr ?_
          exact ⟨rest, hgs2, by simpa using hcs⟩

/-- C2: with resolve computed and fed to the enumerator as the target
length, print_chains emits exactly the chains the contract describes: every
ordered sequence of dictionary entries of exactly maxLen words that begins
at the start entry, makes a valid one-character-insertion transition at
every consecutive pair, and ends in an entry of chain length 1 — all of
them, not just one. -/
theorem claim_C2 (tbl : Table) (start : Word) (maxLen fuel : Nat)
    (hmax : maxLen = resolve tbl start) (hfuel : maxLen ≤ fuel) :
    ∀ cs, cs ∈ print_chains tbl maxLen fuel start 0 [] ↔
      ∃ es : List Word, es.head? = some start ∧ es.length = maxLen ∧
        List.Chain' (Step tbl) es ∧
        (∀ e, es.getLast? = some e → resolve tbl e = 1) ∧
        cs = es.map (fun e => e.original) := by
  intro cs
  have hpos : 1 ≤ maxLen := hmax ▸ one_le_resolve tbl start
  rw [mem_print_chains tbl maxLen fuel start 0 [] cs (by omega) (by omega)]
  constructor
  · rintro ⟨es, hgs, hcs⟩
    refine ⟨start :: es, rfl, ?_, gs_chain tbl maxLen _ _ hgs, ?_, by simpa using hcs⟩
    · have := gs_length tbl maxLen _ _ hgs
      simpa using this
    · intro e he
      have hlast := gs_resolve_last tbl maxLen es start 0 hgs (by omega)
      rw [List.getLast?_eq_getLast _ (List.cons_ne_nil start es)] at he
      have : e = (start :: es).getLast (List.cons_ne_nil start es) := by
        exact (Option.some_inj.mp he).symm
      rw [this]
      exact hlast
  · rintro ⟨es, hhead, hlen, hch, _, hcs⟩
    cases es with
    | nil => cases hhead
    | cons w rest =>
      have hw : w = start := by simpa using hhead
      subst hw
      refine ⟨rest, ?_, by simpa using hcs⟩
      refine chain_to_gs tbl maxLen rest w 0 hch (by omega) ?_
      simpa using hlen

/-- Witness for C2 on the dictionary sail, nails, aliens of the spec's
concrete scenario, starting at sail. -/
theorem claim_C2_witness :
    (3 = resolve (buildTable [[115, 97, 105, 108], [110, 97, 105, 108, 115],
        [97, 108, 105, 101, 110, 115]]) (mkWord [115, 97, 105, 108])) ∧
    (∀ cs, cs ∈ print_chains (buildTable [[115, 97, 105, 108],
        [110, 97, 105, 108, 115], [97, 108, 105, 101, 110, 115]]) 3 5
        (mkWord [115, 97, 105, 108]) 0 [] ↔
      ∃ es : List Word, es.head? = some (mkWord [115, 97, 105, 108]) ∧
        es.length = 3 ∧
        List.Chain' (Step (buildTable [[115, 97, 105, 108],
          [110, 97, 105, 108, 115], [97, 108, 105, 101, 110, 115]])) es ∧
        (∀ e, es.getLast? = some e →
          resolve (buildTable [[115, 97, 105, 108], [110, 97, 105, 108, 115],
            [97, 108, 105, 101, 110, 115]]) e = 1) ∧
        cs = es.map (fun e => e.original)) :=
  ⟨by decide,
    claim_C2 (buildTable [[115, 97, 105, 108], [110, 97, 105, 108, 115],
      [97, 108, 105, 101, 110, 115]]) (mkWord [115, 97, 105, 108]) 3 5
      (by decide) (by decide)⟩

theorem gs_chain_spelling (tbl : Table) (maxLen : Nat) (hwf : WellFormed tbl) :
    ∀ (rest : List Word) (w : Word) (depth : Nat), w ∈ tbl →
      GoodSuffix tbl maxLen depth (w :: rest) →
      List.Chain' (fun u v => ∃ c, 33 ≤ c ∧ c ≤ 126 ∧
        sort_string v = insertChar (sort_string u) c)
        ((w :: rest).map (fun e => e.original)) := by
  intro rest
  induction rest with
  | nil => intro w depth _ _; simp
  | cons s rest2 ih =>
    intro w depth hw hgs
    simp only [GoodSuffix] at hgs
    obtain ⟨-, hstep, -, hgs2⟩ := hgs
    rcases hstep with ⟨c, h1, h2, hfw⟩
    have hs_mem := find_word_mem hfw
    have hs_sorted := find_word_sorted hfw
    have hw_wf := hwf w hw
    have hs_wf := hwf s hs_mem
    simp only [List.map_cons]
    rw [List.chain'_cons]
    constructor
    · refine ⟨c, h1, h2, ?_⟩
      rw [← hs_wf.1, hs_sorted, hw_wf.1]
    · have := ih s (depth + 1) hs_mem hgs2
      simpa using this

theorem gs_last_find (tbl : Table) (maxLen : Nat) :
    ∀ (rest : List Word) (w : Word) (depth : Nat),
      find_word tbl w.sorted = some w →
      GoodSuffix tbl maxLen depth (w :: rest) →
      find_word tbl ((w :: rest).getLast (List.cons_ne_nil w rest)).sorted =
        some ((w :: rest).getLast (List.cons_ne_nil w rest)) := by
  intro rest
  induction rest with
  | nil =>
    intro w depth hfind _
    simpa [List.getLast_singleton] using hfind
  | cons s rest2 ih =>
    intro w depth hfind hgs
    simp only [GoodSuffix] at hgs
    rcases hgs.2.1 with ⟨c, _, _, hfw⟩
    have hs_sorted := find_word_sorted hfw
    have hfind_s : find_word tbl s.sorted = some s := by rw [hs_sorted]; exact hfw
    rw [List.getLast_cons (List.cons_ne_nil s rest2)]
    exact ih s (depth + 1) hfind_s hgs.2.2.2

/-- C3: every chain print_chains emits has exactly maxLen elements, starts
with the start entry's spelling, canonicalises each consecutive pair into a
single-character sorted insertion, and ends in a word whose entry has
resolve value 1. -/
theorem claim_C3 (tbl : Table) (start : Word) (maxLen fuel : Nat)
    (hwf : WellFormed tbl)
    (hstart : find_word tbl start.sorted = some start)
    (hmax : maxLen = resolve tbl start) (hfuel : maxLen ≤ fuel) :
    ∀ cs ∈ print_chains tbl maxLen fuel start 0 [],
      cs.length = maxLen ∧
      cs.head? = some start.original ∧
      List.Chain' (fun u v => ∃ c, 33 ≤ c ∧ c ≤ 126 ∧
        sort_string v = insertChar (sort_string u) c) cs ∧
      (∀ v, cs.getLast? = some v →
        ∃ e, find_word tbl (sort_string v) = some e ∧ resolve tbl e = 1) := by
  intro cs hcs
  have hpos : 1 ≤ maxLen := hmax ▸ one_le_resolve tbl start
  rcases (mem_print_chains tbl maxLen fuel start 0 [] cs (by omega)
    (by omega)).mp hcs with ⟨es, hgs, hcs2⟩
  have hstart_mem : start ∈ tbl := find_word_mem hstart
  have hlen := gs_length tbl maxLen _ _ hgs
  subst hcs2
  refine ⟨?_, ?_, ?_, ?_⟩
  · simpa using hlen
  · simp
  · simpa using gs_chain_spelling tbl maxLen hwf es start 0 hstart_mem hgs
  · intro v hv
    have hlast_ne := List.cons_ne_nil start es
    have hlast := gs_resolve_last tbl maxLen es start 0 hgs (by omega)
    have hfindlast := gs_last_find tbl maxLen es start 0 hstart hgs
    have hlast_mem : (start :: es).getLast hlast_ne ∈ tbl := by
      rcases List.mem_cons.mp (List.getLast_mem hlast_ne) with h | h
      · rw [h]; exact hstart_mem
      · exact gs_tail_mem tbl maxLen (start :: es) 0 hgs _ (by simpa using h)
    have hlast_wf := hwf _ hlast_mem
    have hv2 : v = ((start :: es).getLast hlast_ne).original := by
      have h1 : ([] ++ (start :: es).map (fun e : Word => e.original)).getLast? =
          some (((start :: es).getLast hlast_ne).original) := by
        simp only [List.nil_append]
        rw [List.getLast?_map]
        rw [List.getLast?_eq_getLast _ hlast_ne]
        rfl
      rw [h1] at hv
      exact (Option.some_inj.mp hv).symm
    subst hv2
    refine ⟨(start :: es).getLast hlast_ne, ?_, hlast⟩
    rw [← hlast_wf.1]
    exact hfindlast

/-- Witness for C3 on the sail, nails, aliens dictionary. -/
theorem claim_C3_witness :
    (WellFormed (buildTable [[115, 97, 105, 108], [110, 97, 105, 108, 115],
        [97, 108, 105, 101, 110, 115]]) ∧
      find_word (buildTable [[115, 97, 105, 108], [110, 97, 105, 108, 115],
        [97, 108, 105, 101, 110, 115]]) (mkWord [115, 97, 105, 108]).sorted =
        some (mkWord [115, 97, 105, 108])) ∧
    (∀ cs ∈ print_chains (buildTable [[115, 97, 105, 108],
        [110, 97, 105, 108, 115], [97, 108, 105, 101, 110, 115]]) 3 5
        (mkWord [115, 97, 105, 108]) 0 [],
      cs.length = 3 ∧
      cs.head? = some (mkWord [115, 97, 105, 108]).original ∧
      List.Chain' (fun u v => ∃ c, 33 ≤ c ∧ c ≤ 126 ∧
        sort_string v = insertChar (sort_string u) c) cs ∧
      (∀ v, cs.getLast? = some v →
        ∃ e, find_word (buildTable [[115, 97, 105, 108],
          [110, 97, 105, 108, 115], [97, 108, 105, 101, 110, 115]])
          (sort_string v) = some e ∧
          resolve (buildTable [[115, 97, 105, 108], [110, 97, 105, 108, 115],
            [97, 108, 105, 101, 110, 115]]) e = 1)) :=
  ⟨⟨by decide, by decide⟩,
    claim_C3 (buildTable [[115, 97, 105, 108], [110, 97, 105, 108, 115],
      [97, 108, 105, 101, 110, 115]]) (mkWord [115, 97, 105, 108]) 3 5
      (by decide) (by decide) (by decide) (by decide)⟩

theorem buildTable_eq :
    ∀ (ws : List (List Nat)), buildTable ws = (ws.map mkWord).reverse := by
  have aux : ∀ (ws : List (List Nat)) (acc : Table),
      ws.foldl insert_word acc = (ws.map mkWord).reverse ++ acc := by
    intro ws
    induction ws with
    | nil => intro acc; rfl
    | cons x xs ih =>
      intro acc
      simp only [List.foldl_cons, List.map_cons, List.reverse_cons, insert_word]
      rw [ih (mkWord x :: acc)]
      simp
  intro ws
  rw [buildTable, aux ws []]
  simp

/-- C4: the Index keeps only the most-recently-inserted entry per canonical
form: a lookup in a loaded table returns the entry built from the last
inserted word whose canonical form matches, so after inserting two words
with the same canonical form only the later one is returned and every
earlier entry with that form is unreachable through lookup. -/
theorem claim_C4 (ws : List (List Nat)) (s : List Nat) (u v : List Nat)
    (hsort : sort_string u = sort_string v) :
    find_word (buildTable ws) s =
      (ws.reverse.find? (fun x => sort_string x == s)).map mkWord ∧
    find_word (buildTable (ws ++ [u, v])) (sort_string u) = some (mkWord v) := by
  have main : ∀ (ws : List (List Nat)) (s : List Nat),
      find_word (buildTable ws) s =
        (ws.reverse.find? (fun x => sort_string x == s)).map mkWord := by
    intro ws s
    rw [buildTable_eq, find_word, ← List.map_reverse, List.find?_map]
    rfl
  refine ⟨main ws s, ?_⟩
  rw [main (ws ++ [u, v]) (sort_string u)]
  have h1 : (ws ++ [u, v]).reverse = v :: u :: ws.reverse := by simp
  rw [h1, hsort]
  simp [List.find?_cons]

/-- Witness for C4 with the spec's duplicate-canonical-form example abc and
bca, inserted after a one-word dictionary. -/
theorem claim_C4_witness :
    sort_string [97, 98, 99] = sort_string [98, 99, 97] ∧
    find_word (buildTable ([[120]] ++ [[97, 98, 99], [98, 99, 97]]))
        (sort_string [97, 98, 99]) = some (mkWord [98, 99, 97]) :=
  ⟨by decide,
    (claim_C4 [[120]] [97] [97, 98, 99] [98, 99, 97] (by decide)).2⟩

theorem transGen_sorted_lt (tbl : Table) {w v : Word}
    (h : Relation.TransGen (Step tbl) w v) :
    w.sorted.length < v.sorted.length := by
  induction h with
  | single h1 =>
    have := succs_sorted_length (step_iff_mem_succs.mp h1)
    omega
  | tail h1 h2 ih =>
    have := succs_sorted_length (step_iff_mem_succs.mp h2)
    omega

/-- C5: every valid transition grows the sorted form by exactly one
character, hence the transition relation is acyclic (no entry reaches
itself through one or more transitions), and the chain recursion
terminates: its value is already stable at fuel equal to the longest word
length plus one, which bounds the recursion depth. -/
theorem claim_C5 (tbl : Table) :
    (∀ w s, Step tbl w s → s.sorted.length = w.sorted.length + 1) ∧
    (∀ w, ¬ Relation.TransGen (Step tbl) w w) ∧
    (∀ (w : Word) (fuel : Nat), maxSorted tbl + 1 ≤ fuel →
      longest_chain tbl fuel w = resolve tbl w) := by
  refine ⟨?_, ?_, ?_⟩
  · intro w s h
    exact succs_sorted_length (step_iff_mem_succs.mp h)
  · intro w h
    have := transGen_sorted_lt tbl h
    omega
  · intro w fuel h
    exact longest_chain_eq_resolve tbl fuel w (by omega)

/-- Witness for C5 on the a, ab dictionary: a concrete transition and the
stability of the chain value at large fuel. -/
theorem claim_C5_witness :
    (mkWord [97, 98]).sorted.length = (mkWord [97]).sorted.length + 1 ∧
    longest_chain (buildTable [[97], [97, 98]]) 7 (mkWord [97]) =
      resolve (buildTable [[97], [97, 98]]) (mkWord [97]) :=
  ⟨(claim_C5 (buildTable [[97], [97, 98]])).1 (mkWord [97]) (mkWord [97, 98])
      ⟨98, by decide, by decide, by decide⟩,
    (claim_C5 (buildTable [[97], [97, 98]])).2.2 (mkWord [97]) 7 (by decide)⟩

theorem insertKey_length (l : List Nat) (c : Nat) :
    (insertKey l c).length = l.length + 1 := by
  induction l with
  | nil => rfl
  | cons x xs ih =>
    simp only [insertKey]
    split
    · simp [ih]
    · simp

theorem sort_string_length (s : List Nat) : (sort_string s).length = s.length := by
  have aux : ∀ (t : List Nat) (acc : List Nat),
      (t.foldl insertKey acc).length = acc.length + t.length := by
    intro t
    induction t with
    | nil => intro acc; simp
    | cons x xs ih =>
      intro acc
      simp only [List.foldl_cons, ih (insertKey acc x), insertKey_length,
        List.length_cons]
      omega
  simpa using aux s []

theorem wf_sorted_len {tbl : Table} (hwf : WellFormed tbl) {w : Word}
    (hw : w ∈ tbl) : w.sorted.length = w.original.length := by
  rw [(hwf w hw).1, sort_string_length]

theorem maxSorted_eq_longestWordLen :
    ∀ (tbl : Table), WellFormed tbl → maxSorted tbl = longestWordLen tbl := by
  intro tbl
  induction tbl with
  | nil => intro _; rfl
  | cons x xs ih =>
    intro hwf
    have hx := wf_sorted_len hwf (List.mem_cons_self x xs)
    have hxs : WellFormed xs := fun w hw => hwf w (List.mem_cons_of_mem _ hw)
    simp only [maxSorted, longestWordLen, List.foldr_cons]
    have h2 := ih hxs
    simp only [maxSorted, longestWordLen] at h2
    rw [hx, h2]

theorem longest_chain_le_bound (tbl : Table) :
    ∀ (fuel : Nat) (w : Word), w.sorted.length ≤ maxSorted tbl →
      longest_chain tbl fuel w + w.sorted.length ≤ maxSorted tbl + 1 := by
  intro fuel
  induction fuel with
  | zero =>
    intro w h
    simp only [longest_chain]
    omega
  | succ fuel ih =>
    intro w h
    rw [longest_chain_succ]
    have hfold : (succs tbl w).foldl
        (fun best s => max best (1 + longest_chain tbl fuel s)) 1 ≤
        maxSorted tbl + 1 - w.sorted.length := by
      refine foldl_max_le _ (by omega) ?_
      intro s hs
      have h1 := succs_sorted_length hs
      have h2 := mem_le_maxSorted (succs_mem_table hs)
      have h3 := ih s (by omega)
      omega
    omega

/-- C7: for every word in the dictionary, resolve is at least 1 and at most
the length of the longest dictionary word minus the word's own length plus
one, since each transition adds a character and stays inside the
dictionary. -/
theorem claim_C7 (tbl : Table) (w : Word) (hwf : WellFormed tbl)
    (hw : w ∈ tbl) :
    1 ≤ resolve tbl w ∧ resolve tbl w ≤ longestWordLen tbl - w.length + 1 := by
  refine ⟨one_le_resolve tbl w, ?_⟩
  have h0 : resolve tbl w = longest_chain tbl (maxSorted tbl + 1) w := rfl
  have h1 := longest_chain_le_bound tbl (maxSorted tbl + 1) w (mem_le_maxSorted hw)
  have h2 := mem_le_maxSorted hw
  have h3 := wf_sorted_len hwf hw
  have h4 := (hwf w hw).2
  have h5 := maxSorted_eq_longestWordLen tbl hwf
  omega

/-- Witness for C7 on the a, ab dictionary at the entry for a. -/
theorem claim_C7_witness :
    1 ≤ resolve (buildTable [[97], [97, 98]]) (mkWord [97]) ∧
    resolve (buildTable [[97], [97, 98]]) (mkWord [97]) ≤
      longestWordLen (buildTable [[97], [97, 98]]) - (mkWord [97]).length + 1 :=
  claim_C7 (buildTable [[97], [97, 98]]) (mkWord [97]) (by decide) (by decide)

theorem writeDepths_lt (tbl : Table) (maxLen : Nat) :
    ∀ (fuel : Nat) (w : Word) (depth : Nat), depth < maxLen →
      ∀ d ∈ writeDepths tbl maxLen fuel w depth, d < maxLen := by
  intro fuel
  induction fuel with
  | zero => intro w depth h d hd; cases hd
  | succ fuel ih =>
    intro w depth h d hd
    simp only [writeDepths] at hd
    rcases List.mem_cons.mp hd with hd | hd
    · omega
    · by_cases hEnd : depth + 1 = maxLen
      · rw [if_pos hEnd] at hd
        cases hd
      · rw [if_neg hEnd] at hd
        rcases List.mem_flatMap.mp hd with ⟨c, hc, hd2⟩
        cases hfw : find_word tbl (insertChar w.sorted c) with
        | none => rw [hfw] at hd2; cases hd2
        | some s =>
          rw [hfw] at hd2
          simp only [Option.elim] at hd2
          by_cases hres : resolve tbl s = maxLen - depth - 1
          · rw [if_pos hres] at hd2
            exact ih s (depth + 1) (by omega) d hd2
          · rw [if_neg hres] at hd2
            cases hd2

theorem writeDepths_complete (tbl : Table) (maxLen : Nat) :
    ∀ (fuel : Nat) (w : Word) (depth : Nat),
      resolve tbl w + depth = maxLen → maxLen ≤ depth + fuel →
      ∀ d, depth ≤ d → d < maxLen → d ∈ writeDepths tbl maxLen fuel w depth := by
  intro fuel
  induction fuel with
  | zero =>
    intro w depth hres hfuel d hd1 hd2
    exact absurd hfuel (by omega)
  | succ fuel ih =>
    intro w depth hres hfuel d hd1 hd2
    simp only [writeDepths]
    rcases Nat.eq_or_lt_of_le hd1 with he | hlt
    · rw [← he]
      exact List.mem_cons_self _ _
    · have hEnd : depth + 1 ≠ maxLen := by omega
      refine List.mem_cons_of_mem _ ?_
      rw [if_neg hEnd]
      have h2 : 2 ≤ resolve tbl w := by omega
      rcases resolve_attained h2 with ⟨s, hs, hseq⟩
      rcases mem_succs.mp hs with ⟨c, hc, hfw⟩
      refine List.mem_flatMap.mpr ⟨c, hc, ?_⟩
      rw [hfw]
      simp only [Option.elim]
      have hres2 : resolve tbl s = maxLen - depth - 1 := by omega
      rw [if_pos hres2]
      exact ih s (depth + 1) (by omega) (by omega) d (by omega) hd2

/-- C10: in the main flow, where the target length is the resolved chain
length of the start entry, print_chains writes the path buffer exactly at
the depths 0 .. maxLen - 1, so with the fixed 256-slot buffer of main every
write is in bounds if and only if maxLen is at most 256: the code imposes a
hard ceiling of 256 on the length of an enumerable chain. -/
theorem claim_C10 (tbl : Table) (start : Word) (maxLen fuel : Nat)
    (hmax : maxLen = resolve tbl start) (hfuel : maxLen ≤ fuel) :
    (∀ d ∈ writeDepths tbl maxLen fuel start 0, d < maxLen) ∧
    (∀ d, d < maxLen → d ∈ writeDepths tbl maxLen fuel start 0) ∧
    ((∀ d ∈ writeDepths tbl maxLen fuel start 0, d < 256) ↔ maxLen ≤ 256) := by
  have hpos : 1 ≤ maxLen := hmax ▸ one_le_resolve tbl start
  have hfwd := writeDepths_lt tbl maxLen fuel start 0 (by omega)
  have hbwd := writeDepths_complete tbl maxLen fuel start 0 (by omega) (by omega)
  refine ⟨hfwd, fun d hd => hbwd d (Nat.zero_le d) hd, ?_, ?_⟩
  · intro hall
    by_contra hgt
    have h256 := hbwd 256 (Nat.zero_le _) (by omega)
    have := hall 256 h256
    omega
  · intro hle d hd
    have := hfwd d hd
    omega

/-- Witness for C10 on the sail, nails, aliens dictionary. -/
theorem claim_C10_witness :
    (∀ d ∈ writeDepths (buildTable [[115, 97, 105, 108],
        [110, 97, 105, 108, 115], [97, 108, 105, 101, 110, 115]]) 3 5
        (mkWord [115, 97, 105, 108]) 0, d < 3) ∧
    (∀ d, d < 3 → d ∈ writeDepths (buildTable [[115, 97, 105, 108],
        [110, 97, 105, 108, 115], [97, 108, 105, 101, 110, 115]]) 3 5
        (mkWord [115, 97, 105, 108]) 0) ∧
    ((∀ d ∈ writeDepths (buildTable [[115, 97, 105, 108],
        [110, 97, 105, 108, 115], [97, 108, 105, 101, 110, 115]]) 3 5
        (mkWord [115, 97, 105, 108]) 0, d < 256) ↔ 3 ≤ 256) :=
  claim_C10 (buildTable [[115, 97, 105, 108], [110, 97, 105, 108, 115],
    [97, 108, 105, 101, 110, 115]]) (mkWord [115, 97, 105, 108]) 3 5
    (by decide) (by decide)

theorem print_chains_shift (tbl : Table) (maxLen : Nat) :
    ∀ (fuel : Nat) (w : Word) (depth : Nat) (acc : List (List Nat)),
      print_chains tbl maxLen fuel w depth acc =
        (print_chains tbl maxLen fuel w depth []).map (fun cs => acc ++ cs) := by
  intro fuel
  induction fuel with
  | zero => intro w depth acc; rfl
  | succ fuel ih =>
    intro w depth acc
    by_cases hEnd : depth + 1 = maxLen
    · simp only [print_chains, if_pos hEnd]
      simp
    · simp only [print_chains, if_neg hEnd]
      rw [List.map_flatMap]
      refine congrArg _ (funext fun c => ?_)
      cases hfw : find_word tbl (insertChar w.sorted c) with
      | none => simp [Option.elim]
      | some s =>
        simp only [Option.elim]
        by_cases hres : resolve tbl s = maxLen - depth - 1
        · rw [if_pos hres, if_pos hres]
          rw [ih s (depth + 1) (acc ++ [w.original]),
            ih s (depth + 1) ([] ++ [w.original]), List.map_map]
          refine List.map_congr_left ?_
          intro y hy
          simp
        · rw [if_neg hres, if_neg hres]
          simp
  
theorem print_chains_head (tbl : Table) (maxLen : Nat) :
    ∀ (fuel : Nat) (w : Word) (depth : Nat) (cs : List (List Nat)),
      cs ∈ print_chains tbl maxLen fuel w depth [] →
      ∃ rest, cs = w.original :: rest := by
  intro fuel
  cases fuel with
  | zero => intro w depth cs h; cases h
  | succ fuel =>
    intro w depth cs h
    by_cases hEnd : depth + 1 = maxLen
    · simp only [print_chains, if_pos hEnd, List.mem_singleton] at h
      exact ⟨[], by simp [h]⟩
    · simp only [print_chains, if_neg hEnd] at h
      rcases List.mem_flatMap.mp h with ⟨c, hc, h2⟩
      cases hfw : find_word tbl (insertChar w.sorted c) with
      | none => rw [hfw] at h2; cases h2
      | some s =>
        rw [hfw] at h2
        simp only [Option.elim] at h2
        by_cases hres : resolve tbl s = maxLen - depth - 1
        · rw [if_pos hres] at h2
          rw [print_chains_shift tbl maxLen fuel s (depth + 1)] at h2
          rcases List.mem_map.mp h2 with ⟨y, hy, hcs⟩
          exact ⟨y, by simp [← hcs]⟩
        · rw [if_neg hres] at h2
          cases h2

theorem addedChar_cons_self : ∀ (l : List Nat) (a : Nat), addedChar l (a :: l) = a := by
  intro l
  induction l with
  | nil => intro a; rfl
  | cons x xs ih =>
    intro a
    simp only [addedChar]
    split
    · rename_i hxa
      rw [← hxa]
      exact ih x
    · rfl

theorem addedChar_insertChar : ∀ (l : List Nat) (c : Nat),
    addedChar l (insertChar l c) = c := by
  intro l
  induction l with
  | nil => intro c; rfl
  | cons x xs ih =>
    intro c
    simp only [insertChar]
    by_cases hxc : x < c
    · rw [if_pos hxc]
      simp only [addedChar, if_pos rfl]
      exact ih c
    · rw [if_neg hxc]
      simp only [addedChar]
      split
      · rename_i hxe
        rw [hxe]
        exact addedChar_cons_self xs c
      · rfl

theorem chainChars_cons (u v : List Nat) (rest : List (List Nat)) :
    chainChars (u :: v :: rest) =
      addedChar (sort_string u) (sort_string v) :: chainChars (v :: rest) := rfl

theorem lexLt_cons_of_lt {c1 c2 : Nat} {t1 t2 : List Nat} (h : c1 < c2) :
    lexLt (c1 :: t1) (c2 :: t2) := Or.inl h

theorem lexLt_cons_of_tail {c : Nat} {t1 t2 : List Nat} (h : lexLt t1 t2) :
    lexLt (c :: t1) (c :: t2) := Or.inr ⟨rfl, h⟩

theorem pairwise_flatMap {β γ : Type} {R : γ → γ → Prop} :
    ∀ (l : List β) (g : β → List γ),
      (∀ b ∈ l, List.Pairwise R (g b)) →
      List.Pairwise (fun b1 b2 => ∀ x ∈ g b1, ∀ y ∈ g b2, R x y) l →
      List.Pairwise R (l.flatMap g) := by
  intro l g
  induction l with
  | nil => intro _ _; simp
  | cons b bs ih =>
    intro h1 h2
    rcases List.pairwise_cons.mp h2 with ⟨hb, hbs⟩
    rw [List.flatMap_cons, List.pairwise_append]
    refine ⟨h1 b (List.mem_cons_self _ _),
      ih (fun x hx => h1 x (List.mem_cons_of_mem _ hx)) hbs, ?_⟩
    intro x hx y hy
    rcases List.mem_flatMap.mp hy with ⟨b2, hb2, hy2⟩
    exact hb b2 hb2 x hx y hy2

theorem print_chains_branch (tbl : Table) (maxLen : Nat) (hwf : WellFormed tbl)
    (fuel : Nat) (w : Word) (depth : Nat) (hw : w ∈ tbl)
    (hIH : ∀ s : Word, s ∈ tbl →
      List.Pairwise lexLt ((print_chains tbl maxLen fuel s (depth + 1) []).map chainChars))
    (c : Nat) :
    List.Pairwise lexLt (((find_word tbl (insertChar w.sorted c)).elim []
      (fun s => if resolve tbl s = maxLen - depth - 1 then
        print_chains tbl maxLen fuel s (depth + 1) ([] ++ [w.original])
        else [])).map chainChars) ∧
    (∀ x ∈ ((find_word tbl (insertChar w.sorted c)).elim []
      (fun s => if resolve tbl s = maxLen - depth - 1 then
        print_chains tbl maxLen fuel s (depth + 1) ([] ++ [w.original])
        else [])).map chainChars, ∃ t, x = c :: t) := by
  cases hfw : find_word tbl (insertChar w.sorted c) with
  | none => simp [Option.elim]
  | some s =>
    simp only [Option.elim]
    by_cases hres : resolve tbl s = maxLen - depth - 1
    · rw [if_pos hres]
      have hs_mem := find_word_mem hfw
      have hchar : addedChar (sort_string w.original) (sort_string s.original) = c := by
        rw [← (hwf w hw).1, ← (hwf s hs_mem).1, find_word_sorted hfw]
        exact addedChar_insertChar _ _
      have heq : (print_chains tbl maxLen fuel s (depth + 1)
            ([] ++ [w.original])).map chainChars =
          ((print_chains tbl maxLen fuel s (depth + 1) []).map chainChars).map
            (fun t => c :: t) := by
        rw [print_chains_shift tbl maxLen fuel s (depth + 1), List.map_map,
          List.map_map]
        refine List.map_congr_left ?_
        intro y hy
        rcases print_chains_head tbl maxLen fuel s (depth + 1) y hy with ⟨rest, hrest⟩
        subst hrest
        simp only [Function.comp_apply, List.nil_append, List.singleton_append]
        rw [chainChars_cons, hchar]
      rw [heq]
      constructor
      · exact List.pairwise_map.mpr ((hIH s hs_mem).imp fun h => lexLt_cons_of_tail h)
      · intro x hx
        rcases List.mem_map.mp hx with ⟨t, _, hxt⟩
        exact ⟨t, hxt.symm⟩
    · rw [if_neg hres]
      simp

theorem print_chains_sorted (tbl : Table) (maxLen : Nat) (hwf : WellFormed tbl) :
    ∀ (fuel : Nat) (w : Word) (depth : Nat), w ∈ tbl →
      List.Pairwise lexLt ((print_chains tbl maxLen fuel w depth []).map chainChars) := by
  intro fuel
  induction fuel with
  | zero => intro w depth _; simp [print_chains]
  | succ fuel ih =>
    intro w depth hw
    by_cases hEnd : depth + 1 = maxLen
    · simp only [print_chains, if_pos hEnd]
      simp
    · simp only [print_chains, if_neg hEnd]
      rw [List.map_flatMap]
      have hIH : ∀ s : Word, s ∈ tbl →
          List.Pairwise lexLt
            ((print_chains tbl maxLen fuel s (depth + 1) []).map chainChars) :=
        fun s hs => ih s (depth + 1) hs
      refine pairwise_flatMap _ _ ?_ ?_
      · intro c _
        exact (print_chains_branch tbl maxLen hwf fuel w depth hw hIH c).1
      · refine List.Pairwise.imp ?_ (List.pairwise_lt_range' 33 94)
        intro c1 c2 h12 x hx y hy
        rcases (print_chains_branch tbl maxLen hwf fuel w depth hw hIH c1).2 x hx
          with ⟨t1, hx1⟩
        rcases (print_chains_branch tbl maxLen hwf fuel w depth hw hIH c2).2 y hy
          with ⟨t2, hy2⟩
        subst hx1
        subst hy2
        exact lexLt_cons_of_lt h12

/-- C8: the chains print_chains produces appear in the strict lexicographic
order of their per-step inserted-character sequences, inserted characters
being tried in increasing ASCII order at every branching point. -/
theorem claim_C8 (tbl : Table) (start : Word) (maxLen fuel : Nat)
    (hwf : WellFormed tbl) (hstart : start ∈ tbl) :
    List.Pairwise lexLt ((print_chains tbl maxLen fuel start 0 []).map chainChars) :=
  print_chains_sorted tbl maxLen hwf fuel start 0 hstart

/-- Witness for C8 on the sail, nails, aliens dictionary. -/
theorem claim_C8_witness :
    List.Pairwise lexLt ((print_chains (buildTable [[115, 97, 105, 108],
      [110, 97, 105, 108, 115], [97, 108, 105, 101, 110, 115]]) 3 5
      (mkWord [115, 97, 105, 108]) 0 []).map chainChars) :=
  claim_C8 (buildTable [[115, 97, 105, 108], [110, 97, 105, 108, 115],
    [97, 108, 105, 101, 110, 115]]) (mkWord [115, 97, 105, 108]) 3 5
    (by decide) (by decide)

theorem foldl_invariant {α β : Type} (P : α → Prop) (f : α → β → α) :
    ∀ (l : List β) (init : α), P init → (∀ a b, b ∈ l → P a → P (f a b)) →
      P (l.foldl f init) := by
  intro l
  induction l with
  | nil => intro init h _; exact h
  | cons x xs ih =>
    intro init h hstep
    exact ih (f init x) (hstep init x (List.mem_cons_self _ _) h)
      (fun a b hb ha => hstep a b (List.mem_cons_of_mem _ hb) ha)

theorem lcMemo_length (tbl : Table) :
    ∀ (fuel i : Nat) (m : Memo),
      (longestChainMemo tbl fuel i m).2.1.length = m.length := by
  intro fuel
  induction fuel with
  | zero => intro i m; rfl
  | succ fuel ih =>
    intro i m
    simp only [longestChainMemo]
    split
    · rfl
    · split
      · rfl
      · dsimp only
        rw [List.length_set]
        refine foldl_invariant
          (fun acc : Nat × Memo × Nat => acc.2.1.length = m.length) _ _ _ rfl ?_
        intro a b _ ha
        split
        · dsimp only
          rw [ih _ a.2.1]
          exact ha
        · exact ha

/-- C6: longest_chain is idempotent through its memoisation: when a call on
the entry at position i returns value v with final memo state m2, repeating
the call on m2 returns the same value and the same memo while expanding
zero entries, because the first call has left v stored in the entry's memo
slot. -/
theorem claim_C6 (tbl : Table) (m : Memo) (fuel i v : Nat) (m2 : Memo)
    (k : Nat) (hlen : m.length = tbl.length)
    (h : longestChainMemo tbl fuel i m = (v, m2, k)) :
    longestChainMemo tbl fuel i m2 = (v, m2, 0) ∧
    (∀ w, tbl[i]? = some w → 1 ≤ fuel → m2[i]? = some (some v)) := by
  cases fuel with
  | zero =>
    simp only [longestChainMemo, Prod.mk.injEq] at h
    obtain ⟨h1, h2, h3⟩ := h
    subst h1
    subst h2
    exact ⟨rfl, fun w _ hf => absurd hf (by omega)⟩
  | succ fuel =>
    have hm2 : m2.length = m.length := by
      have hx := lcMemo_length tbl (fuel + 1) i m
      rw [h] at hx
      exact hx
    simp only [longestChainMemo] at h
    split at h
    · rename_i heq
      simp only [Prod.mk.injEq] at h
      obtain ⟨h1, h2, h3⟩ := h
      subst h1
      subst h2
      constructor
      · simp only [longestChainMemo, heq]
      · intro w hw _
        rw [heq] at hw
        cases hw
    · rename_i w heq
      split at h
      · rename_i d heq2
        simp only [Prod.mk.injEq] at h
        obtain ⟨h1, h2, h3⟩ := h
        subst h1
        subst h2
        constructor
        · simp only [longestChainMemo, heq, heq2]
        · intro w2 _ _
          exact heq2
      · simp only [Prod.mk.injEq] at h
        obtain ⟨h1, h2, h3⟩ := h
        have hlt : i < tbl.length := (List.getElem?_eq_some_iff.mp heq).1
        have hlt3 : i < m2.length := by omega
        have hset : m2[i]? = some (some v) := by
          rw [← h1, ← h2]
          rw [← h2] at hlt3
          rw [List.length_set] at hlt3
          exact List.getElem?_set_self hlt3
        constructor
        · simp only [longestChainMemo, heq, hset]
        · intro w2 _ _
          exact hset

/-- Witness for C6: first call on the sail entry of the loaded sail, nails,
aliens dictionary, then the theorem applied to its result. -/
theorem claim_C6_witness :
    longestChainMemo (buildTable [[115, 97, 105, 108], [110, 97, 105, 108, 115],
        [97, 108, 105, 101, 110, 115]]) 7 2
      (longestChainMemo (buildTable [[115, 97, 105, 108],
        [110, 97, 105, 108, 115], [97, 108, 105, 101, 110, 115]]) 7 2
        [none, none, none]).2.1 =
      (3, [some 1, some 2, some 3], 0) ∧
    ([some 1, some 2, some 3] : Memo)[2]? = some (some 3) := by
  have h := claim_C6 (buildTable [[115, 97, 105, 108], [110, 97, 105, 108, 115],
    [97, 108, 105, 101, 110, 115]]) [none, none, none] 7 2 3
    [some 1, some 2, some 3] 3 (by decide) (by decide)
  refine ⟨?_, h.2 (mkWord [115, 97, 105, 108]) (by decide) (by decide)⟩
  have h2 : (longestChainMemo (buildTable [[115, 97, 105, 108],
      [110, 97, 105, 108, 115], [97, 108, 105, 101, 110, 115]]) 7 2
      [none, none, none]).2.1 = [some 1, some 2, some 3] := by decide
  rw [h2]
  exact h.1

theorem lcMemo_preserves (tbl : Table) :
    ∀ (fuel i : Nat) (m : Memo) (p d : Nat),
      m[p]? = some (some d) →
      ((longestChainMemo tbl fuel i m).2.1)[p]? = some (some d) := by
  intro fuel
  induction fuel with
  | zero => intro i m p d hp; exact hp
  | succ fuel ih =>
    intro i m p d hp
    simp only [longestChainMemo]
    split
    · exact hp
    · split
      · exact hp
      · dsimp only
        rename_i hno
        by_cases hpi : p = i
        · subst hpi
          exact absurd hp (hno d)
        · rw [List.getElem?_set_ne (Ne.symm hpi)]
          refine foldl_invariant
            (fun acc : Nat × Memo × Nat => acc.2.1[p]? = some (some d)) _ _ _ hp ?_
          intro a b _ ha
          split
          · dsimp only
            exact ih _ a.2.1 p d ha
          · exact ha

theorem printChainsMemo_memo (tbl : Table) (maxLen : Nat) :
    ∀ (fuel i depth : Nat) (acc : List (List Nat)) (m : Memo),
      (printChainsMemo tbl maxLen fuel i depth acc m).2 = m := by
  intro fuel
  induction fuel with
  | zero => intro i depth acc m; rfl
  | succ fuel ih =>
    intro i depth acc m
    simp only [printChainsMemo]
    split
    · rfl
    · split
      · rfl
      · refine foldl_invariant
          (fun st : List (List (List Nat)) × Memo => st.2 = m) _ _ _ rfl ?_
        intro a b _ ha
        split
        · split
          · dsimp only
            rw [ih]
            exact ha
          · exact ha
        · exact ha

/-- C9: the enumeration pass only reads: print_chains hands the memoised dp
array back unchanged (the spelling, canonical form and length fields live
in the table, which every function here takes as a read-only value), and dp
is write-once: any slot already set to a value is still set to that same
value after any further longest_chain call. -/
theorem claim_C9 (tbl : Table) (maxLen : Nat) :
    (∀ (fuel i depth : Nat) (acc : List (List Nat)) (m : Memo),
      (printChainsMemo tbl maxLen fuel i depth acc m).2 = m) ∧
    (∀ (fuel i : Nat) (m : Memo) (p d : Nat), m[p]? = some (some d) →
      ((longestChainMemo tbl fuel i m).2.1)[p]? = some (some d)) :=
  ⟨printChainsMemo_memo tbl maxLen, lcMemo_preserves tbl⟩

/-- Witness for C9 on the sail, nails, aliens dictionary with dp already
computed for the nails and aliens entries. -/
theorem claim_C9_witness :
    (printChainsMemo (buildTable [[115, 97, 105, 108], [110, 97, 105, 108, 115],
        [97, 108, 105, 101, 110, 115]]) 3 5 2 0 [] [some 1, some 2, none]).2 =
      [some 1, some 2, none] ∧
    ((longestChainMemo (buildTable [[115, 97, 105, 108], [110, 97, 105, 108, 115],
        [97, 108, 105, 101, 110, 115]]) 7 2 [some 1, some 2, none]).2.1)[1]? =
      some (some 2) :=
  ⟨(claim_C9 (buildTable [[115, 97, 105, 108], [110, 97, 105, 108, 115],
      [97, 108, 105, 101, 110, 115]]) 3).1 5 2 0 [] [some 1, some 2, none],
    (claim_C9 (buildTable [[115, 97, 105, 108], [110, 97, 105, 108, 115],
      [97, 108, 105, 101, 110, 115]]) 3).2 7 2 [some 1, some 2, none] 1 2
      (by decide)⟩
